import Mathlib

/-!
Shallow embedding of the `GraphAndRete` notebook: an in-memory directed
graph store (attribute-carrying vertices and edges, per-vertex enumeration
cursors) together with the rule-evaluation helper and the hand-executed
backtracking traversal over a sample rule network.

Python objects registered in a `Graph` are aliased with the store entries,
so all mutation is modelled as explicit state passing through the graph's
association lists; vertices are addressed by their identifiers.
-/

/-- Vertex identifiers: `uuid.uuid4()` is an external unique-id supplier,
modelled as an opaque natural number assigned at creation. -/
abbrev VId := Nat

/-- Edge identifiers are strings, exactly as the source derives them. -/
abbrev EId := String

/-- `edge_id(vertex1id, vertex2id)`: string pairing of the two endpoint ids,
mirroring `"{}.{}".format(str(vertex1id), str(vertex2id))`. -/
def edge_id (v1 v2 : VId) : EId := toString v1 ++ "." ++ toString v2

/-- Attribute keys: the notebook uses both string keys (`'test'`) and
integer keys (`1`). -/
inductive DKey where
  | s (x : String)
  | n (x : Nat)
deriving DecidableEq, Repr

/-- Attribute values: the notebook stores strings (`'START'`, `'TERMINAL'`,
test payloads) and rule triples such as `['x', '>', 0]`. -/
inductive DVal where
  | s (x : String)
  | triple (name op : String) (threshold : Int)
deriving DecidableEq, Repr

/-- Python dict assignment `d[k] = v`: replace the value in place if the key
is present, otherwise append the binding. -/
def updateA {α β : Type} [DecidableEq α] : List (α × β) → α → β → List (α × β)
  | [], k, v => [(k, v)]
  | (k', v') :: rest, k, v =>
      if k' = k then (k, v) :: rest else (k', v') :: updateA rest k v

/-- Python dict lookup `d[k] if k in d else None`. -/
def lookupA {α β : Type} [DecidableEq α] : List (α × β) → α → Option β
  | [], _ => none
  | (k', v') :: rest, k => if k' = k then some v' else lookupA rest k

/-- `Base.insert_data(name, value)`: the body is exactly
`self.data[name] = value`.  A Python dict assignment never raises, so a
present key is silently re-bound. -/
def Base.insert_data (d : List (DKey × DVal)) (k : DKey) (v : DVal) :
    List (DKey × DVal) :=
  updateA d k v

/-- `Base.get_data(name)`: the stored value, or `None` when the key is
absent. -/
def Base.get_data (d : List (DKey × DVal)) (k : DKey) : Option DVal :=
  lookupA d k

/-- `Vertex`: attribute mapping (`Base.data`), ordered adjacency list
`self.edges` of edge ids, and the enumeration cursor `self.iv`. -/
structure Vertex where
  id : VId
  data : List (DKey × DVal)
  edges : List EId
  iv : Nat
deriving DecidableEq, Repr

/-- `Vertex()` as constructed in the notebook, with the externally supplied
unique id. -/
def Vertex.mk0 (i : VId) : Vertex := ⟨i, [], [], 0⟩

def Vertex.get_id (v : Vertex) : VId := v.id

/-- `Base.insert_data` on a vertex. -/
def Vertex.insert_data (v : Vertex) (k : DKey) (x : DVal) : Vertex :=
  { v with data := Base.insert_data v.data k x }

def Vertex.get_data (v : Vertex) (k : DKey) : Option DVal :=
  Base.get_data v.data k

/-- `Edge`: directed endpoints (`self.v1`, `self.v2`, stored as ids) plus
the attribute mapping. -/
structure Edge where
  v1 : VId
  v2 : VId
  data : List (DKey × DVal)
deriving DecidableEq, Repr

/-- `EdgeBase.get_id`: derived from the ordered endpoint pair. -/
def Edge.get_id (e : Edge) : EId := edge_id e.v1 e.v2

def Edge.insert_data (e : Edge) (k : DKey) (x : DVal) : Edge :=
  { e with data := Base.insert_data e.data k x }

def Edge.get_data (e : Edge) (k : DKey) : Option DVal :=
  Base.get_data e.data k

/-- `Graph`: the two id-keyed registries `self.vertices` and `self.edges`,
kept as association lists with Python-dict update semantics. -/
structure Graph where
  vertices : List (VId × Vertex)
  edges : List (EId × Edge)
deriving DecidableEq, Repr

/-- `Graph.add_vertex(vtx)`: `self.vertices[vtx.get_id()] = vtx; return vtx`.
Note the method returns the vertex object itself and never fails: a present
id is silently overwritten by the dict assignment. -/
def Graph.add_vertex (g : Graph) (vtx : Vertex) : Graph × Vertex :=
  ({ g with vertices := updateA g.vertices vtx.get_id vtx }, vtx)

/-- `Graph.add_edge(edg)`: `self.edges[edg.get_id()] = edg; return edg`. -/
def Graph.add_edge (g : Graph) (edg : Edge) : Graph × Edge :=
  ({ g with edges := updateA g.edges edg.get_id edg }, edg)

/-- `Graph.get_vertex(vtxid)`. -/
def Graph.get_vertex (g : Graph) (vtxid : VId) : Option Vertex :=
  lookupA g.vertices vtxid

/-- `Graph.get_edge(edgid)`. -/
def Graph.get_edge (g : Graph) (edgid : EId) : Option Edge :=
  lookupA g.edges edgid

/-- `Vertex.add_edge(edge)`: appends the edge id to the adjacency list. -/
def Vertex.add_edge (v : Vertex) (e : Edge) : Vertex :=
  { v with edges := v.edges ++ [e.get_id] }

/-- `Vertex.get_edge(graph)`: returns `None` once the cursor reaches the
adjacency length, otherwise advances the cursor and looks the current entry
up in the graph. -/
def Vertex.get_edge (v : Vertex) (g : Graph) : Option Edge × Vertex :=
  if h : v.edges.length ≤ v.iv then (none, v)
  else (g.get_edge (v.edges.get ⟨v.iv, by omega⟩), { v with iv := v.iv + 1 })

/-- `Vertex.get_first_edge(graph)`: resets the cursor to 0 and performs one
`get_edge` step. -/
def Vertex.get_first_edge (v : Vertex) (g : Graph) : Option Edge × Vertex :=
  Vertex.get_edge { v with iv := 0 } g

/-- `Vertex.number_edges()`. -/
def Vertex.number_edges (v : Vertex) : Nat := v.edges.length

/-- Applies a vertex-mutating method to the store entry for `vid`
(the Python objects are aliased with the registry entries); a missing id
leaves the store unchanged. -/
def Graph.updV (g : Graph) (vid : VId) (f : Vertex → Vertex) : Graph :=
  match lookupA g.vertices vid with
  | none => g
  | some vx => { g with vertices := updateA g.vertices vid (f vx) }

/-- `v.get_edge(graph)` performed on the registered vertex `vid`, writing
the advanced cursor back into the store. -/
def Graph.vGetEdge (g : Graph) (vid : VId) : Option Edge × Graph :=
  match lookupA g.vertices vid with
  | none => (none, g)
  | some vx =>
      let p := vx.get_edge g
      (p.1, { g with vertices := updateA g.vertices vid p.2 })

/-- `v.get_first_edge(graph)` on the registered vertex `vid`. -/
def Graph.vGetFirstEdge (g : Graph) (vid : VId) : Option Edge × Graph :=
  match lookupA g.vertices vid with
  | none => (none, g)
  | some vx =>
      let p := vx.get_first_edge g
      (p.1, { g with vertices := updateA g.vertices vid p.2 })

/-- `create_edge(graph, vertex1, vertex2)`: builds the edge, appends its id
to both endpoints' adjacency lists (source first), registers it in the
graph and returns it. -/
def create_edge (g : Graph) (v1 v2 : VId) : Graph × Edge :=
  let e : Edge := ⟨v1, v2, []⟩
  let g1 := g.updV v1 (fun vx => vx.add_edge e)
  let g2 := g1.updV v2 (fun vx => vx.add_edge e)
  ((g2.add_edge e).1, e)

/-- `e.insert_data` performed on the registered edge `eid` (the notebook
mutates edge objects after `create_edge` registered them). -/
def Graph.edgeInsertData (g : Graph) (eid : EId) (k : DKey) (x : DVal) :
    Graph :=
  match lookupA g.edges eid with
  | none => g
  | some e => { g with edges := updateA g.edges eid (e.insert_data k x) }

/-- `v.insert_data` performed on the registered vertex `vid`. -/
def Graph.vertexInsertData (g : Graph) (vid : VId) (k : DKey) (x : DVal) :
    Graph :=
  g.updV vid (fun vx => vx.insert_data k x)

/-- `apply_rule(data, x)`: returns `x > data[2]` for comparator `'>'`,
`x < data[2]` for `'<'`, and falls off the end of the function (Python
`None`, modelled as `none`) for anything else; no exception is raised. -/
def apply_rule (data : DVal) (x : Int) : Option Bool :=
  match data with
  | DVal.triple _ op t =>
      if op = ">" then some (decide (x > t))
      else if op = "<" then some (decide (x < t))
      else none
  | DVal.s _ => none

/-! ### Association-list lemmas (Python dict semantics) -/

theorem lookupA_updateA_self {α β : Type} [DecidableEq α]
    (l : List (α × β)) (k : α) (v : β) :
    lookupA (updateA l k v) k = some v := by
  induction l with
  | nil => simp [updateA, lookupA]
  | cons hd tl ih =>
      obtain ⟨k0, v0⟩ := hd
      by_cases h : k0 = k
      · simp [updateA, lookupA, h]
      · simp [updateA, lookupA, h, ih]

theorem lookupA_updateA_other {α β : Type} [DecidableEq α]
    (l : List (α × β)) (k k' : α) (v : β) (hne : k' ≠ k) :
    lookupA (updateA l k v) k' = lookupA l k' := by
  have hks : ¬ k = k' := fun h => hne h.symm
  induction l with
  | nil => simp [updateA, lookupA, hks]
  | cons hd tl ih =>
      obtain ⟨k0, v0⟩ := hd
      by_cases h : k0 = k
      · subst h
        simp [updateA, lookupA, hks]
      · by_cases h2 : k0 = k'
        · simp [updateA, lookupA, h, h2, hne]
        · simp [updateA, lookupA, h, h2, ih]

theorem lookupA_mem {α β : Type} [DecidableEq α]
    {l : List (α × β)} {k : α} {v : β} (h : lookupA l k = some v) :
    (k, v) ∈ l := by
  induction l with
  | nil => simp [lookupA] at h
  | cons hd tl ih =>
      obtain ⟨k0, v0⟩ := hd
      by_cases h0 : k0 = k
      · subst h0
        simp [lookupA] at h
        simp [h]
      · simp [lookupA, h0] at h
        exact List.mem_cons_of_mem _ (ih h)

/-! ### C1: duplicate-key insertion -/

/-- C1 (code behaviour at the failing input): inserting under an
already-present key does NOT fail — `insert_data` is a plain dict
assignment that returns normally — and the stored value is silently
replaced by the second value, not preserved.  The source comment claims
Python would generate an exception for a present key, but dict assignment
never raises. -/
theorem insert_data_overwrites_on_duplicate :
    (((Vertex.mk0 0).insert_data (DKey.s "test") (DVal.s "a")).get_data
        (DKey.s "test") = some (DVal.s "a"))
    ∧ ((((Vertex.mk0 0).insert_data (DKey.s "test") (DVal.s "a")).insert_data
        (DKey.s "test") (DVal.s "b")).get_data (DKey.s "test")
        = some (DVal.s "b")) := by
  constructor <;> rfl

/-! ### C2: predicate evaluation -/

/-- C2 (counterexample): for the unrecognized comparator `'='`, `apply_rule`
does not raise any error — it falls off the end of the function and returns
Python `None` (modelled as `none`), which the caller receives silently. -/
theorem apply_rule_unrecognized_returns_none :
    apply_rule (DVal.triple "x" "=" 5) 3 = none := rfl

/-- C2 (amended): predicate evaluation returns the boolean value of
`x > threshold` when the comparator is `'>'` and of `x < threshold` when it
is `'<'` (the result is exactly that comparison, whether true or false);
for any other comparator value it returns `None` (no boolean and no
exception) rather than raising an UnrecognizedPredicate error. -/
theorem apply_rule_cases (name op : String) (t x : Int) :
    (op = ">" →
      apply_rule (DVal.triple name op t) x = some (decide (x > t)))
    ∧ (op = "<" →
      apply_rule (DVal.triple name op t) x = some (decide (x < t)))
    ∧ (op ≠ ">" → op ≠ "<" →
        apply_rule (DVal.triple name op t) x = none) := by
  refine ⟨fun h => ?_, fun h => ?_, fun h1 h2 => ?_⟩
  · subst h; simp [apply_rule]
  · subst h; simp [apply_rule]
  · simp [apply_rule, h1, h2]

/-- C2 witness: the amended theorem applied at the concrete predicates
`('x', '>', 10)` (true comparison) and `('x', '<', 10)` (false comparison)
with input 85, and at the unrecognized comparator `'='`. -/
theorem apply_rule_cases_witness :
    (apply_rule (DVal.triple "x" ">" 10) 85 = some (decide ((85 : Int) > 10)))
    ∧ (apply_rule (DVal.triple "x" "<" 10) 85
        = some (decide ((85 : Int) < 10)))
    ∧ apply_rule (DVal.triple "x" "=" 10) 85 = none :=
  ⟨(apply_rule_cases "x" ">" 10 85).1 rfl,
   (apply_rule_cases "x" "<" 10 85).2.1 rfl,
   (apply_rule_cases "x" "=" 10 85).2.2 (by decide) (by decide)⟩

/-! ### C4: create_edge -/

/-- Effect of `create_edge` on the graph store, for registered distinct
endpoints: the edge record, its registration, and the two adjacency
appends. -/
theorem create_edge_effect (g : Graph) (a b : VId) (vxa vxb : Vertex)
    (h1 : g.get_vertex a = some vxa) (h2 : g.get_vertex b = some vxb)
    (hab : a ≠ b) :
    ((create_edge g a b).2.v1 = a)
    ∧ ((create_edge g a b).2.v2 = b)
    ∧ ((create_edge g a b).1.get_edge (edge_id a b)
        = some (create_edge g a b).2)
    ∧ ((create_edge g a b).1.get_vertex a
        = some { vxa with edges := vxa.edges ++ [edge_id a b] })
    ∧ ((create_edge g a b).1.get_vertex b
        = some { vxb with edges := vxb.edges ++ [edge_id a b] }) := by
  have hba : b ≠ a := fun h => hab h.symm
  simp only [Graph.get_vertex] at h1 h2
  simp only [create_edge, Graph.updV, Graph.add_edge, Graph.get_vertex,
    Graph.get_edge, Vertex.add_edge, Edge.get_id, h1]
  rw [lookupA_updateA_other _ _ _ _ hba, h2]
  refine ⟨trivial, trivial, lookupA_updateA_self _ _ _, ?_, ?_⟩
  · rw [lookupA_updateA_other _ _ _ _ hab, lookupA_updateA_self]
  · rw [lookupA_updateA_self]

/-- C4: for registered distinct vertices `a` and `b`, `create_edge`
constructs an edge with source `a` and destination `b`, appends its id to
both endpoints' adjacency sequences (the source's list as well as the
destination's), registers it in the graph, and returns it; a subsequent
`get_edge` with the derived id returns a record whose endpoints match. -/
theorem create_edge_spec (g : Graph) (a b : VId) (vxa vxb : Vertex)
    (h1 : g.get_vertex a = some vxa) (h2 : g.get_vertex b = some vxb)
    (hab : a ≠ b) :
    ((create_edge g a b).2.v1 = a)
    ∧ ((create_edge g a b).2.v2 = b)
    ∧ ((create_edge g a b).1.get_edge (edge_id a b)
        = some (create_edge g a b).2)
    ∧ ((create_edge g a b).1.get_vertex a
        = some { vxa with edges := vxa.edges ++ [edge_id a b] })
    ∧ ((create_edge g a b).1.get_vertex b
        = some { vxb with edges := vxb.edges ++ [edge_id a b] }) :=
  create_edge_effect g a b vxa vxb h1 h2 hab

/-- C4 witness: `create_edge_spec` applied on the concrete two-vertex
graph of the notebook's first demonstration. -/
theorem create_edge_spec_witness :
    (((Graph.mk [(0, Vertex.mk0 0), (1, Vertex.mk0 1)] []).get_vertex 0
        = some (Vertex.mk0 0))
      ∧ ((Graph.mk [(0, Vertex.mk0 0), (1, Vertex.mk0 1)] []).get_vertex 1
        = some (Vertex.mk0 1)))
    ∧ ((create_edge (Graph.mk [(0, Vertex.mk0 0), (1, Vertex.mk0 1)] [])
        0 1).1.get_edge (edge_id 0 1)
        = some (create_edge (Graph.mk [(0, Vertex.mk0 0), (1, Vertex.mk0 1)] [])
            0 1).2) :=
  ⟨⟨by decide, by decide⟩,
    (create_edge_spec (Graph.mk [(0, Vertex.mk0 0), (1, Vertex.mk0 1)] [])
      0 1 (Vertex.mk0 0) (Vertex.mk0 1) (by decide) (by decide)
      (by decide)).2.2.1⟩

/-! ### C3: duplicate edge creation -/

/-- C3 (counterexample): creating an edge for an ordered pair that already
has one is not rejected — on a concrete graph the second `create_edge`
returns normally, the registry entry is silently overwritten (the first
edge's attribute is lost), and the source vertex's adjacency list now holds
the same edge id twice. -/
theorem create_edge_duplicate_not_rejected :
    (((((create_edge ((((Graph.mk [] []).add_vertex (Vertex.mk0 0)).1.add_vertex
            (Vertex.mk0 1)).1) 0 1).1.edgeInsertData "0.1" (DKey.n 1)
            (DVal.s "old")).get_edge "0.1")
        = some ⟨0, 1, [(DKey.n 1, DVal.s "old")]⟩)
    ∧ ((create_edge (((create_edge ((((Graph.mk [] []).add_vertex
            (Vertex.mk0 0)).1.add_vertex (Vertex.mk0 1)).1) 0 1).1.edgeInsertData
            "0.1" (DKey.n 1) (DVal.s "old"))) 0 1).1.get_edge "0.1"
        = some ⟨0, 1, []⟩)
    ∧ (((create_edge (((create_edge ((((Graph.mk [] []).add_vertex
            (Vertex.mk0 0)).1.add_vertex (Vertex.mk0 1)).1) 0 1).1.edgeInsertData
            "0.1" (DKey.n 1) (DVal.s "old"))) 0 1).1.get_vertex 0).map
            Vertex.edges
        = some ["0.1", "0.1"])) := by
  refine ⟨by decide, by decide, by decide⟩

/-- C3 (amended): a second `create_edge` for an ordered endpoint pair that
already has a registered edge succeeds: the registry entry under the
derived id is silently replaced by the fresh attribute-free record, and a
duplicate adjacency entry is appended to both endpoints. -/
theorem create_edge_duplicate_overwrites (g : Graph) (a b : VId)
    (vxa vxb : Vertex) (e0 : Edge)
    (h0 : g.get_edge (edge_id a b) = some e0)
    (h1 : g.get_vertex a = some vxa) (h2 : g.get_vertex b = some vxb)
    (hab : a ≠ b) :
    ((create_edge g a b).1.get_edge (edge_id a b) = some ⟨a, b, []⟩)
    ∧ ((create_edge g a b).1.get_vertex a
        = some { vxa with edges := vxa.edges ++ [edge_id a b] })
    ∧ ((create_edge g a b).1.get_vertex b
        = some { vxb with edges := vxb.edges ++ [edge_id a b] }) := by
  have h := create_edge_effect g a b vxa vxb h1 h2 hab
  exact ⟨h.2.2.1, h.2.2.2.1, h.2.2.2.2⟩

/-- C3 witness: `create_edge_duplicate_overwrites` applied on the concrete
graph that already carries an attribute-bearing edge `0.1`. -/
theorem create_edge_duplicate_overwrites_witness :
    ((create_edge (((create_edge ((((Graph.mk [] []).add_vertex
        (Vertex.mk0 0)).1.add_vertex (Vertex.mk0 1)).1) 0 1).1.edgeInsertData
        "0.1" (DKey.n 1) (DVal.s "old"))) 0 1).1.get_edge (edge_id 0 1)
      = some ⟨0, 1, []⟩) :=
  (create_edge_duplicate_overwrites
    (((create_edge ((((Graph.mk [] []).add_vertex (Vertex.mk0 0)).1.add_vertex
        (Vertex.mk0 1)).1) 0 1).1.edgeInsertData "0.1" (DKey.n 1)
        (DVal.s "old")))
    0 1 ⟨0, [], ["0.1"], 0⟩ ⟨1, [], ["0.1"], 0⟩
    ⟨0, 1, [(DKey.n 1, DVal.s "old")]⟩
    (by decide) (by decide) (by decide) (by decide)).1

/-! ### C6: add_vertex -/

/-- C6 (counterexample): registering a vertex whose id is already present
does not fail — on a concrete graph `add_vertex` returns normally (it
returns the vertex object itself, not its id) and the existing entry is
silently overwritten. -/
theorem add_vertex_duplicate_not_rejected :
    (((Graph.mk [(0, ⟨0, [(DKey.s "k", DVal.s "old")], [], 0⟩)]
        []).add_vertex ⟨0, [(DKey.s "k", DVal.s "new")], [], 0⟩).2
      = ⟨0, [(DKey.s "k", DVal.s "new")], [], 0⟩)
    ∧ (((Graph.mk [(0, ⟨0, [(DKey.s "k", DVal.s "old")], [], 0⟩)]
        []).add_vertex ⟨0, [(DKey.s "k", DVal.s "new")], [], 0⟩).1.get_vertex 0
      = some ⟨0, [(DKey.s "k", DVal.s "new")], [], 0⟩)
    ∧ ((⟨0, [(DKey.s "k", DVal.s "new")], [], 0⟩ : Vertex)
      ≠ ⟨0, [(DKey.s "k", DVal.s "old")], [], 0⟩) := by
  refine ⟨by decide, by decide, by decide⟩

/-- C6 (amended): `add_vertex` registers the vertex under its id in the
id-to-vertex mapping and returns the vertex object itself (from which the
caller reads the id); it never fails — when the id is already present the
existing entry is silently overwritten by the dict assignment. -/
theorem add_vertex_registers (g : Graph) (vx : Vertex) :
    ((g.add_vertex vx).2 = vx)
    ∧ ((g.add_vertex vx).1.get_vertex vx.get_id = some vx) :=
  ⟨rfl, lookupA_updateA_self _ _ _⟩

/-! ### C5: cursor enumeration -/

/-- Runs `n` successive `get_edge` calls on a vertex, collecting the
returned values and threading the cursor state. -/
def enumN (g : Graph) : Vertex → Nat → List (Option Edge) × Vertex
  | v, 0 => ([], v)
  | v, n + 1 =>
      let p := v.get_edge g
      let q := enumN g p.2 n
      (p.1 :: q.1, q.2)

/-- Characterization of `n` successive `get_edge` calls from an arbitrary
cursor position: the calls step through the remaining adjacency entries in
order, resolving each through the graph, and return `none` forever once the
cursor reaches the adjacency length. -/
theorem enumN_eq (g : Graph) (n : Nat) (v : Vertex) :
    (enumN g v n).1
      = ((v.edges.map g.get_edge).drop v.iv).take n
        ++ List.replicate (n - (v.edges.length - v.iv)) none := by
  induction n generalizing v with
  | zero => simp [enumN]
  | succ n ih =>
      by_cases h : v.edges.length ≤ v.iv
      · have hdrop : (v.edges.map g.get_edge).drop v.iv = [] := by
          apply List.drop_eq_nil_of_le
          simpa using h
        have hsub : v.edges.length - v.iv = 0 := by omega
        have hrec := ih v
        rw [hdrop, hsub] at hrec ⊢
        simp only [enumN, Vertex.get_edge, dif_pos h]
        simp only [List.take_nil, List.nil_append] at hrec ⊢
        rw [hrec]
        simp [List.replicate_succ]
      · have hlt : v.iv < v.edges.length := by omega
        have hltm : v.iv < (v.edges.map g.get_edge).length := by simpa using hlt
        simp only [enumN, Vertex.get_edge, dif_neg h]
        have hrec := ih { v with iv := v.iv + 1 }
        simp only at hrec
        rw [hrec]
        rw [List.drop_eq_getElem_cons hltm]
        simp only [List.take_succ_cons]
        have hgoal : (n + 1) - (v.edges.length - v.iv)
            = n - (v.edges.length - (v.iv + 1)) := by omega
        rw [List.cons_append, hgoal]
        congr 1
        simp [List.get_eq_getElem]

/-- C5: calling `get_first_edge` (cursor reset to 0) and then repeatedly
`get_edge` on a vertex enumerates every adjacency entry exactly once, in
insertion order (each resolved through the graph registry), and once the
cursor passes the adjacency length every further call returns `none`
without wrapping or resetting. -/
theorem first_then_next_enumerates_adjacency (g : Graph) (v : Vertex)
    (n : Nat) :
    (enumN g { v with iv := 0 } n).1
      = (v.edges.map g.get_edge).take n
        ++ List.replicate (n - v.edges.length) none := by
  have h := enumN_eq g n { v with iv := 0 }
  simpa using h

/-! ### C9: enumeration is not restricted to outgoing edges -/

/-- C9: because `create_edge` appends the new edge's id to the adjacency
lists of both endpoints, cursor enumeration of the destination vertex
returns an edge whose destination (not source) is that vertex: on the
concrete two-vertex graph, the first enumerated edge of vertex 1 is the
edge 0 → 1. -/
theorem enumeration_returns_incoming_edge :
    (((create_edge ((((Graph.mk [] []).add_vertex (Vertex.mk0 0)).1.add_vertex
        (Vertex.mk0 1)).1) 0 1).1.vGetFirstEdge 1).1 = some ⟨0, 1, []⟩)
    ∧ ((⟨0, 1, []⟩ : Edge).v2 = 1)
    ∧ ((⟨0, 1, []⟩ : Edge).v1 ≠ 1) := by
  refine ⟨by decide, rfl, by decide⟩

/-! ### The dump routine -/

/-- `self.iv = 0` performed on the registered vertex `vid` (the reset half
of `get_first_edge`). -/
def Graph.resetCursor (g : Graph) (vid : VId) : Graph :=
  g.updV vid (fun vx => { vx with iv := 0 })

/-- The `while e is not None` loop of `dump_graph`, fuel-bounded: each
iteration advances the cursor of `vid`; an unvisited edge is printed,
appended to the dump's visited list, and recursively dumped from its
destination (which is printed and has its cursor reset on entry).  `none`
means the fuel ran out; the notebook's recursion always terminates because
the visited list only grows.  The state is `(graph, visited, printed
vertices)`. -/
def dumpLoop : Nat → Graph → VId → List EId → List VId →
    Option (Graph × List EId × List VId)
  | 0, _, _, _, _ => none
  | n + 1, g, vid, vis, out =>
      match g.vGetEdge vid with
      | (none, g1) => some (g1, vis, out)
      | (some e, g1) =>
          if e.get_id ∈ vis then dumpLoop n g1 vid vis out
          else
            match dumpLoop n (g1.resetCursor e.v2) e.v2 (vis ++ [e.get_id])
                (out ++ [e.v2]) with
            | none => none
            | some (g2, vis2, out2) => dumpLoop n g2 vid vis2 out2

/-- `dump_graph(graph, v)`: prints `v`, then `get_first_edge` (cursor
reset plus one `get_edge`, the latter being the loop's first iteration)
and the printing loop. -/
def dump_graph (fuel : Nat) (g : Graph) (vid : VId) :
    Option (Graph × List EId × List VId) :=
  dumpLoop fuel (g.resetCursor vid) vid [] [vid]

/-! ### The sample 5-rule network (notebook cell building e1..e6) -/

/-- The rule graph exactly as built in the notebook: START = vertex 0,
A (rule2) = 1, B (rule4) = 2, C (rule3) = 3, T1 (end_rule1) = 4,
D (rule5) = 5, T2 (end_rule2) = 6, with the six guarded edges, before the
closing `dump_graph` call. -/
def ruleGraph0 : Graph :=
  let g := Graph.mk [] []
  let g := (g.add_vertex (Vertex.mk0 0)).1
  let g := g.vertexInsertData 0 (DKey.n 1) (DVal.s "START")
  let g := (g.add_vertex (Vertex.mk0 1)).1
  let g := (create_edge g 0 1).1
  let g := g.edgeInsertData (edge_id 0 1) (DKey.n 1) (DVal.triple "x" ">" 0)
  let g := (g.add_vertex (Vertex.mk0 2)).1
  let g := (create_edge g 0 2).1
  let g := g.edgeInsertData (edge_id 0 2) (DKey.n 1)
    (DVal.triple "x" "<" 2000)
  let g := (g.add_vertex (Vertex.mk0 3)).1
  let g := (create_edge g 1 3).1
  let g := g.edgeInsertData (edge_id 1 3) (DKey.n 1) (DVal.triple "x" ">" 10)
  let g := (g.add_vertex (Vertex.mk0 4)).1
  let g := g.vertexInsertData 4 (DKey.n 1) (DVal.s "TERMINAL")
  let g := (create_edge g 3 4).1
  let g := g.edgeInsertData (edge_id 3 4) (DKey.n 1) (DVal.triple "x" "<" 80)
  let g := (g.add_vertex (Vertex.mk0 5)).1
  let g := (create_edge g 2 5).1
  let g := g.edgeInsertData (edge_id 2 5) (DKey.n 1)
    (DVal.triple "x" "<" 100)
  let g := (g.add_vertex (Vertex.mk0 6)).1
  let g := g.vertexInsertData 6 (DKey.n 1) (DVal.s "TERMINAL")
  let g := (create_edge g 5 6).1
  g.edgeInsertData (edge_id 5 6) (DKey.n 1) (DVal.triple "x" ">" 80)

/-- The rule graph after the `dump_graph(g, start)` call that closes the
setup cell (the dump only moves enumeration cursors; on this input the
fuel is ample, so the default branch is dead). -/
def ruleGraph : Graph :=
  ((dump_graph 50 ruleGraph0 0).map (fun r => r.1)).getD ruleGraph0

/-! ### C7: the hand-executed traversal for x = 85 (notebook cells 21-29) -/

/-- The inner `while anedge is not None and anedge.get_id() in visited`
loop of the backtracking cell: keeps advancing the cursor of `vid` until
an unvisited edge (or `None`) comes back. -/
def scanSkipVisited : Nat → Graph → VId → List EId → Option Edge →
    Option Edge × Graph
  | 0, g, _, _, a => (a, g)
  | n + 1, g, vid, vis, some e =>
      if e.get_id ∈ vis then
        let p := g.vGetEdge vid
        scanSkipVisited n p.2 vid vis p.1
      else (some e, g)
  | _, g, _, _, none => (none, g)

/-- The outer `while not path.empty()` loop of the backtracking cell: pops
the top edge of the path stack, returns to its source vertex, rewinds that
vertex's enumeration with `get_first_edge`, skips visited edges, and either
breaks with an unvisited edge or keeps unwinding.  The path is kept
bottom-to-top, so the stack top is the last element. -/
def backtrackLoop : Nat → Graph → List EId → List EId →
    Option Edge × List EId × Graph
  | 0, g, path, _ => (none, path, g)
  | n + 1, g, path, vis =>
      match path.getLast? with
      | none => (none, path, g)
      | some prevId =>
          let path1 := path.dropLast
          match g.get_edge prevId with
          | none => (none, path1, g)
          | some prev =>
              let p := g.vGetFirstEdge prev.v1
              let q := scanSkipVisited 20 p.2 prev.v1 vis p.1
              match q.1 with
              | none => backtrackLoop n q.2 path1 vis
              | some e => (some e, path1, q.2)

/-- One "try the next rule" cell: `get_first_edge` on `vid`, and when the
returned edge is already visited a single further `get_edge` call (the
notebook uses one `if`, not a loop).  Returns the chosen edge and the
updated graph, or `none` where Python would have crashed on a `None`. -/
def pickNext (g : Graph) (vid : VId) (vis : List EId) :
    Option (Edge × Graph) :=
  let p := g.vGetFirstEdge vid
  match p.1 with
  | none => none
  | some e0 =>
      if e0.get_id ∈ vis then
        let q := p.2.vGetEdge vid
        match q.1 with
        | none => none
        | some e1 => some (e1, q.2)
      else some (e0, p.2)

/-- The notebook's hand-executed traversal (cells 21, 22, 23, 25, 28, 29)
run on `ruleGraph` with a given input `x`: returns the final path stack
(bottom-to-top), the final visited list, and the value of the last
`TERMINAL ?` check (`get_data(1)` of the destination of the last chosen
edge). -/
def notebookRun (x : Int) :
    Option (List EId × List EId × Option DVal × List (Option Bool)) :=
  let g := ruleGraph
  let p1 := g.vGetFirstEdge 0
  match p1.1 with
  | none => none
  | some sc1 =>
      let g := p1.2
      let vis := [sc1.get_id]
      let path := [sc1.get_id]
      let r1 := (sc1.get_data (DKey.n 1)).bind (fun d => apply_rule d x)
      match pickNext g sc1.v2 vis with
      | none => none
      | some (nc, g) =>
          let vis := vis ++ [nc.get_id]
          let path := path ++ [nc.get_id]
          let r2 := (nc.get_data (DKey.n 1)).bind (fun d => apply_rule d x)
          match pickNext g nc.v2 vis with
          | none => none
          | some (fwo, g) =>
              let vis := vis ++ [fwo.get_id]
              let path := path ++ [fwo.get_id]
              let r3 := (fwo.get_data (DKey.n 1)).bind (fun d => apply_rule d x)
              let path := path.dropLast
              match backtrackLoop 20 g path vis with
              | (none, _, _) => none
              | (some ae, path, g) =>
                  let vis := vis ++ [ae.get_id]
                  let path := path ++ [ae.get_id]
                  let r4 := (ae.get_data (DKey.n 1)).bind (fun d => apply_rule d x)
                  match pickNext g ae.v2 vis with
                  | none => none
                  | some (swo, g) =>
                      let vis := vis ++ [swo.get_id]
                      let path := path ++ [swo.get_id]
                      let r5 := (swo.get_data (DKey.n 1)).bind
                        (fun d => apply_rule d x)
                      let tcheck := (g.get_vertex swo.v2).bind
                        (fun vx => vx.get_data (DKey.n 1))
                      some (path, vis, tcheck, [r1, r2, r3, r4, r5])

/-- C7 (code behaviour at the failing input x = 85): the hand-executed
traversal does try START→A, A→C and C→T1 (visited list
`["0.1", "1.3", "3.4", ...]`, with the C→T1 check `85 < 80` printing
`false`) and backtracks to START→B and B→D — but it stops there: the final
path stack holds only the two edges START→B and B→D, the edge D→T2
(`"5.6"`) is never evaluated, and the closing `TERMINAL ?` check prints
`None` because vertex D carries no TERMINAL marker, contradicting the
cell's own comment that a terminal vertex was reached. -/
theorem notebookRun_85_stops_short :
    notebookRun 85
      = some (["0.2", "2.5"],
          ["0.1", "1.3", "3.4", "0.2", "2.5"],
          none,
          [some true, some true, some false, some true, some true]) := by
  rfl

/-! ### C8: the backtracking search engine -/

/-- Modelled from the spec: the complete traversal-engine loop (spec §4.4)
is absent from the source — the notebook hand-executes its steps cell by
cell — so the engine's step is reconstructed from the spec's state machine:
Advancing scans the current vertex's adjacency from its existing cursor,
skipping visited edges; a found edge is marked visited and Evaluated with
`apply_rule`; a true guard moves to the destination (success if it is
marked TERMINAL, its cursor reset on arrival otherwise); a false guard
stays to try further edges (push then immediate pop); exhaustion pops the
path stack or fails when it is empty.  Search outcomes. -/
inductive SRes where
  | success (path : List EId)
  | exhausted
  | ruleError
deriving DecidableEq, Repr

/-- Modelled from the spec: traversal state — graph (whose per-vertex
cursors are the enumeration state), current vertex, LIFO path stack
(head = top, full edge records), and the visited-edge list. -/
structure SState where
  g : Graph
  current : VId
  path : List Edge
  visited : List EId
deriving DecidableEq, Repr

/-- A vertex is marked TERMINAL when its attribute 1 is the string
`'TERMINAL'`, as in the sample network. -/
def isTerminal (g : Graph) (vid : VId) : Bool :=
  match g.get_vertex vid with
  | some vx => decide (vx.get_data (DKey.n 1) = some (DVal.s "TERMINAL"))
  | none => false

/-- Modelled from the spec: the Advancing scan — repeated `get_edge` calls
on the current vertex (from its existing cursor) until an edge not in the
visited list comes back, or enumeration exhausts.  Fuel-bounded; the
per-call cursor advance bounds the iterations by the adjacency length. -/
def scanFrom : Nat → Graph → VId → List EId → Option Edge × Graph
  | 0, g, _, _ => (none, g)
  | n + 1, g, vid, vis =>
      match g.vGetEdge vid with
      | (none, g1) => (none, g1)
      | (some e, g1) =>
          if e.get_id ∈ vis then scanFrom n g1 vid vis else (some e, g1)

/-- Sufficient scan fuel for one Advancing phase. -/
def scanBound (g : Graph) (vid : VId) : Nat :=
  match g.get_vertex vid with
  | some vx => vx.edges.length + 1
  | none => 1

/-- Modelled from the spec: one engine step (Advancing, then Evaluating or
Backtracking). -/
def stepS (x : Int) (s : SState) : SState ⊕ SRes :=
  match scanFrom (scanBound s.g s.current) s.g s.current s.visited with
  | (none, g1) =>
      match s.path with
      | [] => Sum.inr SRes.exhausted
      | e :: rest => Sum.inl ⟨g1, e.v1, rest, s.visited⟩
  | (some e, g1) =>
      let vis := s.visited ++ [e.get_id]
      match (e.get_data (DKey.n 1)).bind (fun d => apply_rule d x) with
      | none => Sum.inr SRes.ruleError
      | some false => Sum.inl ⟨g1, s.current, s.path, vis⟩
      | some true =>
          if isTerminal g1 e.v2 then
            Sum.inr (SRes.success (((e :: s.path).map Edge.get_id).reverse))
          else Sum.inl ⟨g1.resetCursor e.v2, e.v2, e :: s.path, vis⟩

/-- Modelled from the spec: the engine's initial state — empty visited set
and path stack, current = START, whose first Advancing call is a
`get_first_edge` (cursor reset). -/
def initS (g : Graph) (start : VId) : SState :=
  ⟨g.resetCursor start, start, [], []⟩

/-- Runs `n` engine steps; a finished search absorbs further steps. -/
def runS (x : Int) : Nat → SState ⊕ SRes → SState ⊕ SRes
  | 0, c => c
  | n + 1, Sum.inl s => runS x n (stepS x s)
  | _ + 1, Sum.inr r => Sum.inr r

/-! ### Frame lemmas for the engine -/

theorem updV_edges (g : Graph) (vid : VId) (f : Vertex → Vertex) :
    (g.updV vid f).edges = g.edges := by
  unfold Graph.updV
  cases lookupA g.vertices vid <;> rfl

theorem resetCursor_edges (g : Graph) (vid : VId) :
    (g.resetCursor vid).edges = g.edges :=
  updV_edges g vid _

theorem vGetEdge_edges (g : Graph) (vid : VId) :
    (g.vGetEdge vid).2.edges = g.edges := by
  unfold Graph.vGetEdge
  cases lookupA g.vertices vid <;> rfl

theorem vGetEdge_some_lookup {g : Graph} {vid : VId} {e : Edge}
    (h : (g.vGetEdge vid).1 = some e) :
    ∃ k, lookupA g.edges k = some e := by
  unfold Graph.vGetEdge at h
  cases hv : lookupA g.vertices vid with
  | none => rw [hv] at h; cases h
  | some vx =>
      rw [hv] at h
      simp only at h
      unfold Vertex.get_edge at h
      by_cases hlen : vx.edges.length ≤ vx.iv
      · rw [dif_pos hlen] at h; cases h
      · rw [dif_neg hlen] at h
        exact ⟨_, h⟩

theorem scanFrom_edges (n : Nat) (g : Graph) (vid : VId) (vis : List EId) :
    (scanFrom n g vid vis).2.edges = g.edges := by
  induction n generalizing g with
  | zero => rfl
  | succ n ih =>
      rcases hge : g.vGetEdge vid with ⟨e?, ga⟩
      have hga : ga.edges = g.edges := by
        have := vGetEdge_edges g vid
        rw [hge] at this
        exact this
      cases e? with
      | none => simp [scanFrom, hge, hga]
      | some e0 =>
          simp only [scanFrom, hge]
          by_cases hv : e0.get_id ∈ vis
          · rw [if_pos hv, ih ga]
            exact hga
          · rw [if_neg hv]
            exact hga

theorem scanFrom_some {n : Nat} {g : Graph} {vid : VId} {vis : List EId}
    {e : Edge} {g1 : Graph}
    (h : scanFrom n g vid vis = (some e, g1)) :
    e.get_id ∉ vis ∧ ∃ k, lookupA g.edges k = some e := by
  induction n generalizing g with
  | zero => cases h
  | succ n ih =>
      rcases hge : g.vGetEdge vid with ⟨e?, ga⟩
      have hga : ga.edges = g.edges := by
        have := vGetEdge_edges g vid
        rw [hge] at this
        exact this
      cases e? with
      | none => simp only [scanFrom, hge] at h; simp at h
      | some e0 =>
          simp only [scanFrom, hge] at h
          by_cases hv : e0.get_id ∈ vis
          · rw [if_pos hv] at h
            obtain ⟨hni, k, hk⟩ := ih h
            rw [hga] at hk
            exact ⟨hni, k, hk⟩
          · rw [if_neg hv] at h
            injection h with he hg
            injection he with he2
            subst he2
            refine ⟨hv, ?_⟩
            have hl : (g.vGetEdge vid).1 = some e0 := by rw [hge]
            exact vGetEdge_some_lookup hl

/-! ### Counting and invariants for termination -/

/-- The edge ids registered in a graph. -/
def edgeKeys (g : Graph) : List EId := g.edges.map Prod.fst

/-- Registry keys match the stored edge's derived id (it holds for every
graph reachable through `Graph.add_edge` and `edgeInsertData`). -/
def EdgesWF (g : Graph) : Prop := ∀ p ∈ g.edges, Edge.get_id p.2 = p.1

/-- The edge carries a guard triple with a recognized comparator. -/
def guardOK (e : Edge) : Bool :=
  match e.get_data (DKey.n 1) with
  | some (DVal.triple _ op _) => op = ">" || op = "<"
  | _ => false

/-- Every registered edge carries a recognized guard predicate. -/
def GuardsWF (g : Graph) : Prop := ∀ p ∈ g.edges, guardOK p.2 = true

/-- Number of registered edge ids not yet visited. -/
def unvisCount (G : Graph) (vis : List EId) : Nat :=
  ((edgeKeys G).filter (fun a => decide (a ∉ vis))).length

theorem length_filter_append_lt {l vis : List EId} {k : EId}
    (hk : k ∈ l) (hnk : k ∉ vis) :
    (List.filter (fun a => decide (a ∉ vis ++ [k])) l).length
      < (List.filter (fun a => decide (a ∉ vis)) l).length := by
  induction l with
  | nil => cases hk
  | cons a l ih =>
      by_cases ha : a = k
      · subst ha
        have h1 : (decide (a ∉ vis ++ [a])) = false := by simp
        have h2 : (decide (a ∉ vis)) = true := by simpa using hnk
        rw [List.filter_cons, List.filter_cons, h1, h2]
        have hsub : List.Sublist
            (List.filter (fun c => decide (c ∉ vis ++ [a])) l)
            (List.filter (fun c => decide (c ∉ vis)) l) := by
          apply List.monotone_filter_right
          intro c hc
          simp only [decide_eq_true_eq] at hc ⊢
          intro hmem
          exact hc (List.mem_append_left _ hmem)
        have hle := hsub.length_le
        simp only [Bool.false_eq_true, if_false, if_true, List.length_cons]
        omega
      · have hk2 : k ∈ l := by
          rcases List.mem_cons.mp hk with h | h
          · exact absurd h.symm ha
          · exact h
        have heq : (decide (a ∉ vis ++ [k])) = (decide (a ∉ vis)) := by
          apply decide_eq_decide.mpr
          constructor
          · intro h hmem
            exact h (List.mem_append_left _ hmem)
          · intro h hmem
            rcases List.mem_append.mp hmem with hm | hm
            · exact h hm
            · simp at hm
              exact ha hm
        rw [List.filter_cons, List.filter_cons, heq]
        have hrec := ih hk2
        cases hd : decide (a ∉ vis) with
        | false =>
            simp only [Bool.false_eq_true, if_false]
            exact hrec
        | true =>
            simp only [if_true, List.length_cons]
            omega

theorem unvisCount_append_lt {G : Graph} {vis : List EId} {k : EId}
    (hk : k ∈ edgeKeys G) (hnk : k ∉ vis) :
    unvisCount G (vis ++ [k]) < unvisCount G vis :=
  length_filter_append_lt hk hnk

theorem nodup_subset_length_le {l1 l2 : List EId} (h1 : l1.Nodup)
    (hsub : ∀ a ∈ l1, a ∈ l2) : l1.length ≤ l2.length := by
  calc l1.length = l1.toFinset.card := (List.toFinset_card_of_nodup h1).symm
    _ ≤ l2.toFinset.card := Finset.card_le_card (fun a ha => by
        rw [List.mem_toFinset] at ha ⊢
        exact hsub a ha)
    _ ≤ l2.length := List.toFinset_card_le l2

/-- Engine invariant: the edge registry never changes, the visited list is
duplicate-free and holds registered ids, and the path stack holds
pairwise-distinct visited edges. -/
def SInv (G : Graph) (s : SState) : Prop :=
  s.g.edges = G.edges
  ∧ s.visited.Nodup
  ∧ (∀ a ∈ s.visited, a ∈ edgeKeys G)
  ∧ (∀ e ∈ s.path, Edge.get_id e ∈ s.visited)
  ∧ (s.path.map Edge.get_id).Nodup

/-- Termination measure: unvisited edges dominate, path length breaks
ties. -/
def measureS (G : Graph) (s : SState) : Nat :=
  ((edgeKeys G).length + 1) * unvisCount G s.visited + s.path.length

theorem nodup_append_single {l : List EId} {a : EId} (h : l.Nodup)
    (ha : a ∉ l) : (l ++ [a]).Nodup := by
  simp [List.nodup_append, h, ha]

theorem stepS_inl {G : Graph} {x : Int} {s s' : SState}
    (hWF : EdgesWF G) (hInv : SInv G s)
    (h : stepS x s = Sum.inl s') :
    SInv G s' ∧ measureS G s' < measureS G s := by
  obtain ⟨hE, hNd, hVK, hPV, hPNd⟩ := hInv
  rcases hscan : scanFrom (scanBound s.g s.current) s.g s.current s.visited
    with ⟨e?, g1⟩
  have hg1E : g1.edges = s.g.edges := by
    have := scanFrom_edges (scanBound s.g s.current) s.g s.current s.visited
    rw [hscan] at this
    exact this
  cases e? with
  | none =>
      cases hp : s.path with
      | nil =>
          simp only [stepS, hscan, hp] at h
          cases h
      | cons e rest =>
          simp only [stepS, hscan, hp] at h
          obtain rfl : (⟨g1, e.v1, rest, s.visited⟩ : SState) = s' :=
            Sum.inl.inj h
          rw [hp] at hPV hPNd
          refine ⟨⟨hg1E.trans hE, hNd, hVK, ?_, ?_⟩, ?_⟩
          · intro e2 he2
            exact hPV e2 (List.mem_cons_of_mem _ he2)
          · exact (List.nodup_cons.mp hPNd).2
          · simp only [measureS, hp, List.length_cons]
            omega
  | some e =>
      obtain ⟨hnv, k, hk⟩ := scanFrom_some hscan
      have hkG : lookupA G.edges k = some e := by rw [← hE]; exact hk
      have hmemG := lookupA_mem hkG
      have hkid : Edge.get_id e = k := hWF _ hmemG
      have hkkeys : Edge.get_id e ∈ edgeKeys G := by
        rw [hkid]
        exact List.mem_map_of_mem Prod.fst hmemG
      have hEpos : 0 < (edgeKeys G).length :=
        List.length_pos.mpr (List.ne_nil_of_mem hkkeys)
      have hu := unvisCount_append_lt hkkeys hnv
      have hmul := Nat.mul_le_mul_left ((edgeKeys G).length + 1)
        (Nat.succ_le_of_lt hu)
      rw [Nat.succ_eq_add_one] at hmul
      have hexp : ((edgeKeys G).length + 1)
          * (unvisCount G (s.visited ++ [Edge.get_id e]) + 1)
          = ((edgeKeys G).length + 1)
            * unvisCount G (s.visited ++ [Edge.get_id e])
            + ((edgeKeys G).length + 1) := by ring
      have hNd2 : (s.visited ++ [Edge.get_id e]).Nodup :=
        nodup_append_single hNd hnv
      have hVK2 : ∀ a ∈ s.visited ++ [Edge.get_id e], a ∈ edgeKeys G := by
        intro a ha
        rcases List.mem_append.mp ha with hm | hm
        · exact hVK a hm
        · simp at hm
          rw [hm]
          exact hkkeys
      cases hg : (e.get_data (DKey.n 1)).bind (fun d => apply_rule d x) with
      | none =>
          simp only [stepS, hscan, hg] at h
          cases h
      | some b =>
          cases b with
          | false =>
              simp only [stepS, hscan, hg] at h
              obtain rfl :
                  (⟨g1, s.current, s.path, s.visited ++ [Edge.get_id e]⟩
                    : SState) = s' := Sum.inl.inj h
              refine ⟨⟨hg1E.trans hE, hNd2, hVK2, ?_, hPNd⟩, ?_⟩
              · intro e2 he2
                exact List.mem_append_left _ (hPV e2 he2)
              · simp only [measureS]
                omega
          | true =>
              cases hterm : isTerminal g1 e.v2 with
              | true =>
                  simp only [stepS, hscan, hg, hterm, if_true] at h
                  cases h
              | false =>
                  simp only [stepS, hscan, hg, hterm, Bool.false_eq_true,
                    if_false] at h
                  obtain rfl :
                      (⟨g1.resetCursor e.v2, e.v2, e :: s.path,
                        s.visited ++ [Edge.get_id e]⟩ : SState) = s' :=
                    Sum.inl.inj h
                  refine ⟨⟨?_, hNd2, hVK2, ?_, ?_⟩, ?_⟩
                  · rw [resetCursor_edges, hg1E, hE]
                  · intro e2 he2
                    rcases List.mem_cons.mp he2 with hm | hm
                    · rw [hm]
                      exact List.mem_append_right _ (by simp)
                    · exact List.mem_append_left _ (hPV e2 hm)
                  · simp only [List.map_cons]
                    refine List.nodup_cons.mpr ⟨?_, hPNd⟩
                    intro hcon
                    rcases List.mem_map.mp hcon with ⟨e2, he2, hid⟩
                    have := hPV e2 he2
                    rw [hid] at this
                    exact hnv this
                  · simp only [measureS, List.length_cons]
                    omega

theorem guardOK_apply {e : Edge} (hg : guardOK e = true) (x : Int) :
    ∃ b, (e.get_data (DKey.n 1)).bind (fun d => apply_rule d x) = some b := by
  unfold guardOK at hg
  cases hd : e.get_data (DKey.n 1) with
  | none => rw [hd] at hg; cases hg
  | some d =>
      rw [hd] at hg
      cases d with
      | s y => cases hg
      | triple nm op t =>
          simp only [Option.some_bind]
          by_cases ho : op = ">"
          · subst ho
            exact ⟨decide (x > t), by simp [apply_rule]⟩
          · have ho2 : op = "<" := by
              simp only [Bool.or_eq_true, decide_eq_true_eq] at hg
              rcases hg with hh | hh
              · exact absurd hh ho
              · exact hh
            subst ho2
            exact ⟨decide (x < t), by simp [apply_rule]⟩

theorem stepS_no_ruleError {G : Graph} {x : Int} {s : SState}
    (hG : GuardsWF G) (hE : s.g.edges = G.edges)
    (h : stepS x s = Sum.inr SRes.ruleError) : False := by
  rcases hscan : scanFrom (scanBound s.g s.current) s.g s.current s.visited
    with ⟨e?, g1⟩
  cases e? with
  | none =>
      cases hp : s.path with
      | nil =>
          simp only [stepS, hscan, hp] at h
          exact SRes.noConfusion (Sum.inr.inj h)
      | cons e rest =>
          simp only [stepS, hscan, hp] at h
          exact Sum.noConfusion h
  | some e =>
      obtain ⟨hnv, k, hk⟩ := scanFrom_some hscan
      have hkG : lookupA G.edges k = some e := by rw [← hE]; exact hk
      have hmemG := lookupA_mem hkG
      have hgOK : guardOK e = true := hG _ hmemG
      obtain ⟨b, hb⟩ := guardOK_apply hgOK x
      cases b with
      | false =>
          simp only [stepS, hscan, hb] at h
          exact Sum.noConfusion h
      | true =>
          cases hterm : isTerminal g1 e.v2 with
          | true =>
              simp only [stepS, hscan, hb, hterm, if_true] at h
              exact SRes.noConfusion (Sum.inr.inj h)
          | false =>
              simp only [stepS, hscan, hb, hterm, Bool.false_eq_true,
                if_false] at h
              exact Sum.noConfusion h

theorem runS_succ_inl (x : Int) (n : Nat) (s : SState) :
    runS x (n + 1) (Sum.inl s) = runS x n (stepS x s) := rfl

theorem runS_inr (x : Int) (n : Nat) (r : SRes) :
    runS x n (Sum.inr r) = Sum.inr r := by cases n <;> rfl

theorem searchAux {G : Graph} {x : Int} (hWF : EdgesWF G)
    (hG : GuardsWF G) :
    ∀ k (s : SState), SInv G s → measureS G s ≤ k →
    ∃ n, n ≤ k + 1 ∧ ∃ r, runS x n (Sum.inl s) = Sum.inr r
      ∧ r ≠ SRes.ruleError := by
  intro k
  induction k with
  | zero =>
      intro s hInv hm
      cases hstep : stepS x s with
      | inr r =>
          refine ⟨1, le_refl 1, r, ?_, ?_⟩
          · rw [runS_succ_inl]
            rw [hstep]
            rfl
          · intro hr
            subst hr
            exact stepS_no_ruleError hG hInv.1 hstep
      | inl s2 =>
          exfalso
          have := (stepS_inl hWF hInv hstep).2
          omega
  | succ k ih =>
      intro s hInv hm
      cases hstep : stepS x s with
      | inr r =>
          refine ⟨1, by omega, r, ?_, ?_⟩
          · rw [runS_succ_inl]
            rw [hstep]
            rfl
          · intro hr
            subst hr
            exact stepS_no_ruleError hG hInv.1 hstep
      | inl s2 =>
          obtain ⟨hInv2, hlt⟩ := stepS_inl hWF hInv hstep
          obtain ⟨n, hn, r, hr, hrr⟩ := ih s2 hInv2 (by omega)
          refine ⟨n + 1, by omega, r, ?_, hrr⟩
          rw [runS_succ_inl, hstep]
          exact hr

theorem initS_inv (G : Graph) (start : VId) : SInv G (initS G start) := by
  refine ⟨resetCursor_edges G start, List.nodup_nil, ?_, ?_, List.nodup_nil⟩
  · intro a ha; cases ha
  · intro e he; cases he

theorem unvisCount_nil (G : Graph) :
    unvisCount G [] = (edgeKeys G).length := by
  simp [unvisCount]

theorem measureS_init (G : Graph) (start : VId) :
    measureS G (initS G start)
      = ((edgeKeys G).length + 1) * (edgeKeys G).length := by
  simp [measureS, initS, unvisCount_nil]

theorem stepS_visited_prefix {x : Int} {s s' : SState}
    (h : stepS x s = Sum.inl s') : s.visited.IsPrefix s'.visited := by
  rcases hscan : scanFrom (scanBound s.g s.current) s.g s.current s.visited
    with ⟨e?, g1⟩
  cases e? with
  | none =>
      cases hp : s.path with
      | nil => simp only [stepS, hscan, hp] at h; cases h
      | cons e rest =>
          simp only [stepS, hscan, hp] at h
          obtain rfl := Sum.inl.inj h
          exact List.prefix_refl _
  | some e =>
      cases hb : (e.get_data (DKey.n 1)).bind (fun d => apply_rule d x) with
      | none => simp only [stepS, hscan, hb] at h; cases h
      | some b =>
          cases b with
          | false =>
              simp only [stepS, hscan, hb] at h
              obtain rfl := Sum.inl.inj h
              exact List.prefix_append _ _
          | true =>
              cases hterm : isTerminal g1 e.v2 with
              | true =>
                  simp only [stepS, hscan, hb, hterm, if_true] at h
                  cases h
              | false =>
                  simp only [stepS, hscan, hb, hterm, Bool.false_eq_true,
                    if_false] at h
                  obtain rfl := Sum.inl.inj h
                  exact List.prefix_append _ _

theorem runS_inl_nodup {G : Graph} {x : Int} (hWF : EdgesWF G) :
    ∀ (n : Nat) (s : SState), SInv G s →
    ∀ s2, runS x n (Sum.inl s) = Sum.inl s2 → s2.visited.Nodup := by
  intro n
  induction n with
  | zero =>
      intro s hInv s2 h
      obtain rfl := Sum.inl.inj h
      exact hInv.2.1
  | succ n ih =>
      intro s hInv s2 h
      rw [runS_succ_inl] at h
      cases hstep : stepS x s with
      | inr r =>
          rw [hstep, runS_inr] at h
          cases h
      | inl s3 =>
          rw [hstep] at h
          exact ih s3 (stepS_inl hWF hInv hstep).1 s2 h

/-- C8 (spec-modelled engine): for every graph whose registry keys match
the stored edges and whose guards are recognized, and every start vertex
and input, the backtracking search terminates — the run reaches a final
result within `(|E|+1)·|E| + 1` steps and that result is SearchExhausted
or a Success (never an error); moreover the visited-edge list only grows
(every step extends it, as a prefix, by at most one id), and it stays
duplicate-free along the whole run, so every edge is evaluated at most
once per traversal. -/
theorem search_terminates (G : Graph) (start : VId) (x : Int)
    (hWF : EdgesWF G) (hG : GuardsWF G) :
    (∃ n, n ≤ ((edgeKeys G).length + 1) * (edgeKeys G).length + 1
      ∧ ∃ r, runS x n (Sum.inl (initS G start)) = Sum.inr r
        ∧ (r = SRes.exhausted ∨ ∃ p, r = SRes.success p))
    ∧ (∀ s s2, stepS x s = Sum.inl s2 → s.visited.IsPrefix s2.visited)
    ∧ (∀ n s, runS x n (Sum.inl (initS G start)) = Sum.inl s
        → s.visited.Nodup) := by
  refine ⟨?_, fun s s2 h => stepS_visited_prefix h,
    fun n s h => runS_inl_nodup hWF n (initS G start) (initS_inv G start) s h⟩
  obtain ⟨n, hn, r, hr, hrr⟩ := searchAux hWF hG
    (((edgeKeys G).length + 1) * (edgeKeys G).length)
    (initS G start) (initS_inv G start) (le_of_eq (measureS_init G start))
  refine ⟨n, hn, r, hr, ?_⟩
  cases r with
  | success p => exact Or.inr ⟨p, rfl⟩
  | exhausted => exact Or.inl rfl
  | ruleError => exact absurd rfl hrr

/-- C8 witness: the termination-and-dichotomy conclusion instantiated on
the notebook's sample rule network with input 85 (on which the engine in
fact succeeds with the three-edge path START→B, B→D, D→T2). -/
theorem search_terminates_witness :
    ∃ n, n ≤ ((edgeKeys ruleGraph0).length + 1) * (edgeKeys ruleGraph0).length
        + 1
      ∧ ∃ r, runS 85 n (Sum.inl (initS ruleGraph0 0)) = Sum.inr r
        ∧ (r = SRes.exhausted ∨ ∃ p, r = SRes.success p) :=
  (search_terminates ruleGraph0 0 85 (by unfold EdgesWF; decide)
    (by unfold GuardsWF; decide)).1

/-- The spec-modelled engine on the sample network and input 85 follows the
spec's walkthrough: backtracking from the failed C→T1 guard, it succeeds
with the path START→B, B→D, D→T2 — which is exactly what the notebook's
hand-executed run fails to complete. -/
theorem engine_sample_run_85 :
    runS 85 30 (Sum.inl (initS ruleGraph0 0))
      = Sum.inr (SRes.success [edge_id 0 2, edge_id 2 5, edge_id 5 6]) := by
  rfl

/-! ### C10: the dump routine and enumeration state -/

/-- The cursor-independent part of a vertex: identity, attributes,
adjacency. -/
def Vertex.core (v : Vertex) : VId × List (DKey × DVal) × List EId :=
  (v.id, v.data, v.edges)

/-- No dangling adjacency entries: every entry of a registered vertex
resolves in the edge registry (holds by construction for graphs built
through `create_edge`). -/
def VWF (g : Graph) : Prop :=
  ∀ w vx, lookupA g.vertices w = some vx →
    ∀ eid ∈ vx.edges, (lookupA g.edges eid).isSome = true

/-- Membership-based (decidable) sufficient condition for `VWF`. -/
theorem VWF_of_mem {g : Graph}
    (h : ∀ p ∈ g.vertices, ∀ eid ∈ (p.2 : Vertex).edges,
      (lookupA g.edges eid).isSome = true) : VWF g :=
  fun w vx hl eid he => h (w, vx) (lookupA_mem hl) eid he

theorem updateA_self {α β : Type} [DecidableEq α] {l : List (α × β)} {k : α}
    {v : β} (h : lookupA l k = some v) : updateA l k v = l := by
  induction l with
  | nil => cases h
  | cons hd tl ih =>
      obtain ⟨k0, v0⟩ := hd
      by_cases hk : k0 = k
      · subst hk
        simp only [lookupA, if_pos rfl] at h
        obtain rfl := Option.some.inj h
        simp [updateA]
      · simp only [lookupA, if_neg hk] at h
        simp [updateA, hk, ih h]

theorem lookup_core_update {g : Graph} {vid : VId} {vx vx2 : Vertex}
    (h : lookupA g.vertices vid = some vx) (hc : vx2.core = vx.core) :
    ∀ w, (lookupA (updateA g.vertices vid vx2) w).map Vertex.core
      = (lookupA g.vertices w).map Vertex.core := by
  intro w
  by_cases hw : w = vid
  · subst hw
    rw [lookupA_updateA_self, h]
    simp [hc]
  · rw [lookupA_updateA_other _ _ _ _ hw]

theorem core_edges_eq {v1 v2 : Vertex} (h : v1.core = v2.core) :
    v1.edges = v2.edges := by
  have := congrArg (fun c => c.2.2) h
  simpa [Vertex.core] using this

theorem VWF_transport {g1 g2 : Graph}
    (hcore : ∀ w, (lookupA g2.vertices w).map Vertex.core
      = (lookupA g1.vertices w).map Vertex.core)
    (hedges : g2.edges = g1.edges) (h : VWF g1) : VWF g2 := by
  intro w vx hl eid he
  have hw := hcore w
  rw [hl] at hw
  cases hl1 : lookupA g1.vertices w with
  | none => rw [hl1] at hw; cases hw
  | some vx1 =>
      rw [hl1] at hw
      have hce : vx.core = vx1.core := Option.some.inj hw
      have hee : vx.edges = vx1.edges := core_edges_eq hce
      rw [hedges]
      exact h w vx1 hl1 eid (hee ▸ he)

theorem resetCursor_core (g : Graph) (u : VId) :
    ∀ w, (lookupA (g.resetCursor u).vertices w).map Vertex.core
      = (lookupA g.vertices w).map Vertex.core := by
  intro w
  unfold Graph.resetCursor Graph.updV
  cases hu : lookupA g.vertices u with
  | none => rfl
  | some vx =>
      simp only
      exact @lookup_core_update g u vx ⟨vx.id, vx.data, vx.edges, 0⟩ hu rfl w

theorem resetCursor_other (g : Graph) (u w : VId) (hw : w ≠ u) :
    lookupA (g.resetCursor u).vertices w = lookupA g.vertices w := by
  unfold Graph.resetCursor Graph.updV
  cases hu : lookupA g.vertices u with
  | none => rfl
  | some vx =>
      simp only
      exact lookupA_updateA_other _ _ _ _ hw

theorem resetCursor_iv (g : Graph) (u : VId) :
    ∀ vx, lookupA (g.resetCursor u).vertices u = some vx → vx.iv = 0 := by
  intro vx h
  unfold Graph.resetCursor Graph.updV at h
  cases hu : lookupA g.vertices u with
  | none => rw [hu] at h; rw [hu] at h; cases h
  | some vx0 =>
      rw [hu] at h
      simp only at h
      rw [lookupA_updateA_self] at h
      obtain rfl := Option.some.inj h
      rfl

theorem vGetEdge_char (g : Graph) (vid : VId) {vx : Vertex}
    (hv : lookupA g.vertices vid = some vx)
    (hlen : ¬ vx.edges.length ≤ vx.iv) :
    ∃ entry, entry ∈ vx.edges ∧
    g.vGetEdge vid = (g.get_edge entry,
      Graph.mk (updateA g.vertices vid { vx with iv := vx.iv + 1 })
        g.edges) := by
  refine ⟨vx.edges.get ⟨vx.iv, by omega⟩, List.get_mem _ _ _, ?_⟩
  unfold Graph.vGetEdge Vertex.get_edge
  rw [hv]
  simp only [dif_neg hlen]

theorem dumpLoop_spec :
    ∀ (n : Nat) (g : Graph) (vid : VId) (vis : List EId) (out : List VId)
      (g' : Graph) (vis' : List EId) (out' : List VId),
    dumpLoop n g vid vis out = some (g', vis', out') →
    VWF g →
    (∀ vx, lookupA g.vertices vid = some vx → vx.iv ≤ vx.edges.length) →
    ∃ nw, out' = out ++ nw
      ∧ g'.edges = g.edges
      ∧ (∀ w, (lookupA g'.vertices w).map Vertex.core
          = (lookupA g.vertices w).map Vertex.core)
      ∧ (∀ w, w ≠ vid → w ∉ nw →
          lookupA g'.vertices w = lookupA g.vertices w)
      ∧ (∀ w ∈ nw, ∀ vx, lookupA g'.vertices w = some vx →
          vx.iv = vx.edges.length)
      ∧ (∀ vx, lookupA g'.vertices vid = some vx →
          vx.iv = vx.edges.length) := by
  intro n
  induction n with
  | zero =>
      intro g vid vis out g' vis' out' hd
      cases hd
  | succ n ih =>
      intro g vid vis out g' vis' out' hd hVWF hH
      cases hv : lookupA g.vertices vid with
      | none =>
          have hge : g.vGetEdge vid = (none, g) := by
            unfold Graph.vGetEdge
            rw [hv]
          simp only [dumpLoop, hge] at hd
          injection hd with hd1
          injection hd1 with ha hb
          injection hb with hb1 hb2
          subst ha hb1 hb2
          refine ⟨[], by simp, rfl, fun w => rfl, fun w h1 h2 => rfl, ?_, ?_⟩
          · intro w hw; cases hw
          · intro vx h
            rw [hv] at h
            cases h
      | some vx =>
          by_cases hlen : vx.edges.length ≤ vx.iv
          · have hge : g.vGetEdge vid = (none, g) := by
              unfold Graph.vGetEdge Vertex.get_edge
              rw [hv]
              simp only [dif_pos hlen]
              rw [updateA_self hv]
            simp only [dumpLoop, hge] at hd
            injection hd with hd1
            injection hd1 with ha hb
            injection hb with hb1 hb2
            subst ha hb1 hb2
            refine ⟨[], by simp, rfl, fun w => rfl, fun w h1 h2 => rfl, ?_, ?_⟩
            · intro w hw; cases hw
            · intro vx2 h
              rw [hv] at h
              have h2 := Option.some.inj h
              subst h2
              have := hH vx hv
              omega
          · obtain ⟨entry, hentry, hge⟩ := vGetEdge_char g vid hv hlen
            cases he : g.get_edge entry with
            | none =>
                exfalso
                have hs := hVWF vid vx hv entry hentry
                unfold Graph.get_edge at he
                rw [he] at hs
                cases hs
            | some e =>
                rw [he] at hge
                have hcore1 : ∀ w,
                    (lookupA (updateA g.vertices vid
                        { vx with iv := vx.iv + 1 }) w).map Vertex.core
                      = (lookupA g.vertices w).map Vertex.core :=
                  lookup_core_update hv rfl
                have hunt1 : ∀ w, w ≠ vid →
                    lookupA (updateA g.vertices vid
                        { vx with iv := vx.iv + 1 }) w
                      = lookupA g.vertices w :=
                  fun w hw => lookupA_updateA_other _ _ _ _ hw
                have hVWF1 : VWF (Graph.mk (updateA g.vertices vid
                    { vx with iv := vx.iv + 1 }) g.edges) :=
                  VWF_transport hcore1 rfl hVWF
                have hH1 : ∀ vx2, lookupA (updateA g.vertices vid
                      { vx with iv := vx.iv + 1 }) vid = some vx2 →
                    vx2.iv ≤ vx2.edges.length := by
                  intro vx2 h2
                  rw [lookupA_updateA_self] at h2
                  obtain rfl := Option.some.inj h2
                  simp only
                  omega
                simp only [dumpLoop, hge] at hd
                by_cases hvis : Edge.get_id e ∈ vis
                · rw [if_pos hvis] at hd
                  obtain ⟨nw, hout, hedg, hcore, hunt, hD, hE⟩ :=
                    ih _ vid vis out g' vis' out' hd hVWF1 hH1
                  refine ⟨nw, hout, hedg, fun w => (hcore w).trans (hcore1 w),
                    fun w h1 h2 => (hunt w h1 h2).trans (hunt1 w h1), hD, hE⟩
                · rw [if_neg hvis] at hd
                  cases hinner : dumpLoop n
                      ((Graph.mk (updateA g.vertices vid
                        { vx with iv := vx.iv + 1 }) g.edges).resetCursor
                          e.v2)
                      e.v2 (vis ++ [Edge.get_id e]) (out ++ [e.v2]) with
                  | none => rw [hinner] at hd; cases hd
                  | some trip =>
                      obtain ⟨g2, vis2, out2⟩ := trip
                      rw [hinner] at hd
                      have hredge : ((Graph.mk (updateA g.vertices vid
                          { vx with iv := vx.iv + 1 }) g.edges).resetCursor
                            e.v2).edges = g.edges := by
                        rw [resetCursor_edges]
                      have hVWFr : VWF ((Graph.mk (updateA g.vertices vid
                          { vx with iv := vx.iv + 1 }) g.edges).resetCursor
                            e.v2) :=
                        VWF_transport (resetCursor_core _ e.v2) hredge hVWF1
                      have hHr : ∀ vx2, lookupA ((Graph.mk (updateA g.vertices
                            vid { vx with iv := vx.iv + 1 })
                            g.edges).resetCursor e.v2).vertices e.v2
                          = some vx2 → vx2.iv ≤ vx2.edges.length := by
                        intro vx2 h2
                        rw [resetCursor_iv _ e.v2 vx2 h2]
                        omega
                      obtain ⟨nw2, hout2, hedg2, hcore2, hunt2, hD2, hE2⟩ :=
                        ih _ e.v2 (vis ++ [Edge.get_id e]) (out ++ [e.v2])
                          g2 vis2 out2 hinner hVWFr hHr
                      have hVWF2 : VWF g2 :=
                        VWF_transport hcore2 hedg2 hVWFr
                      have hg1vid : lookupA (updateA g.vertices vid
                            { vx with iv := vx.iv + 1 }) vid
                          = some { vx with iv := vx.iv + 1 } :=
                        lookupA_updateA_self _ _ _
                      have hH2 : ∀ vx2, lookupA g2.vertices vid = some vx2 →
                          vx2.iv ≤ vx2.edges.length := by
                        intro vx2 hl2
                        by_cases hvv : vid = e.v2
                        · exact le_of_eq (hE2 vx2 (by rw [← hvv]; exact hl2))
                        · by_cases hnw2 : vid ∈ nw2
                          · exact le_of_eq (hD2 vid hnw2 vx2 hl2)
                          · rw [hunt2 vid hvv hnw2,
                              resetCursor_other _ e.v2 vid hvv, hg1vid] at hl2
                            obtain rfl := Option.some.inj hl2
                            simp only
                            omega
                      obtain ⟨nw3, hout3, hedg3, hcore3, hunt3, hD3, hE3⟩ :=
                        ih _ vid vis2 out2 g' vis' out' hd hVWF2 hH2
                      refine ⟨e.v2 :: (nw2 ++ nw3), ?_, ?_, ?_, ?_, ?_, hE3⟩
                      · rw [hout3, hout2]
                        simp
                      · rw [hedg3, hedg2, hredge]
                      · intro w
                        rw [hcore3 w, hcore2 w, resetCursor_core _ e.v2 w,
                          hcore1 w]
                      · intro w h1 h2
                        have hw2 : w ≠ e.v2 := fun hh => h2 (by rw [hh]; simp)
                        have hwn2 : w ∉ nw2 := fun hh => h2 (by simp [hh])
                        have hwn3 : w ∉ nw3 := fun hh => h2 (by simp [hh])
                        rw [hunt3 w h1 hwn3, hunt2 w hw2 hwn2,
                          resetCursor_other _ e.v2 w hw2, hunt1 w h1]
                      · intro w hw vx2 hl2
                        by_cases hvv : w = vid
                        · exact hE3 vx2 (by rw [← hvv]; exact hl2)
                        · by_cases hwn3 : w ∈ nw3
                          · exact hD3 w hwn3 vx2 hl2
                          · have hl2b : lookupA g2.vertices w = some vx2 := by
                              rw [← hunt3 w hvv hwn3]
                              exact hl2
                            rcases List.mem_cons.mp hw with hh | hh
                            · exact hE2 vx2 (by rw [← hh]; exact hl2b)
                            · rcases List.mem_append.mp hh with hh2 | hh2
                              · exact hD2 w hh2 vx2 hl2b
                              · exact absurd hh2 hwn3

/-- C10 (amended): the dump routine is not read-only with respect to
enumeration state — it walks each printed vertex with `get_first_edge` /
`get_edge`, so when a dump completes every printed vertex's shared cursor
sits at its adjacency-exhaustion position (its adjacency length); the
cursor has therefore changed exactly when its prior position differed from
that (a vertex already at that position — e.g. empty adjacency with cursor
0 — is left unchanged), and any in-progress enumeration positioned
elsewhere is disturbed. The edge registry and every vertex's identity,
attribute data and adjacency are unchanged. -/
theorem dump_graph_cursors (g : Graph) (root : VId) (fuel : Nat)
    (g' : Graph) (vis' : List EId) (out' : List VId)
    (hVWF : VWF g)
    (hd : dump_graph fuel g root = some (g', vis', out')) :
    (∀ w ∈ out', ∀ vx, lookupA g'.vertices w = some vx →
        vx.iv = vx.edges.length)
    ∧ g'.edges = g.edges
    ∧ (∀ w, (lookupA g'.vertices w).map Vertex.core
        = (lookupA g.vertices w).map Vertex.core) := by
  unfold dump_graph at hd
  have hVWFr : VWF (g.resetCursor root) :=
    VWF_transport (resetCursor_core g root) (resetCursor_edges g root) hVWF
  have hHr : ∀ vx, lookupA (g.resetCursor root).vertices root = some vx →
      vx.iv ≤ vx.edges.length := by
    intro vx h
    rw [resetCursor_iv g root vx h]
    omega
  obtain ⟨nw, hout, hedg, hcore, hunt, hD, hE⟩ :=
    dumpLoop_spec fuel _ root [] [root] g' vis' out' hd hVWFr hHr
  refine ⟨?_, hedg.trans (resetCursor_edges g root),
    fun w => (hcore w).trans (resetCursor_core g root w)⟩
  intro w hw vx hl
  rw [hout] at hw
  rcases List.mem_append.mp hw with hh | hh
  · simp only [List.mem_singleton] at hh
    subst hh
    exact hE vx hl
  · exact hD w hh vx hl

/-- Witness graph for the dump theorems: two registered vertices joined by
one edge. -/
def dumpWG : Graph :=
  (create_edge ((((Graph.mk [] []).add_vertex (Vertex.mk0 0)).1.add_vertex
    (Vertex.mk0 1)).1) 0 1).1

/-- C10 witness: `dump_graph_cursors` applied to the concrete two-vertex
graph — the dump completes, both printed vertices end with their cursors at
the exhausted position 1, and the edge registry is unchanged. -/
theorem dump_graph_cursors_witness :
    (dump_graph 10 dumpWG 0
      = some (Graph.mk
          [(0, ⟨0, [], ["0.1"], 1⟩), (1, ⟨1, [], ["0.1"], 1⟩)]
          [("0.1", ⟨0, 1, []⟩)], ["0.1"], [0, 1]))
    ∧ (Graph.mk [(0, ⟨0, [], ["0.1"], 1⟩), (1, ⟨1, [], ["0.1"], 1⟩)]
        [("0.1", ⟨0, 1, []⟩)]).edges = dumpWG.edges :=
  ⟨rfl,
    (dump_graph_cursors dumpWG 0 10
      (Graph.mk [(0, ⟨0, [], ["0.1"], 1⟩), (1, ⟨1, [], ["0.1"], 1⟩)]
        [("0.1", ⟨0, 1, []⟩)]) ["0.1"] [0, 1]
      (VWF_of_mem (by decide)) rfl).2.1⟩

/-- C10 (counterexample): a dump does not change the cursor of every
visited vertex — on the one-vertex graph with empty adjacency and cursor 0,
the dump completes having printed the vertex (output `[0]`), yet the graph,
and in particular that vertex's cursor, is exactly unchanged. -/
theorem dump_leaves_exhausted_cursor_unchanged :
    dump_graph 2 (Graph.mk [(0, Vertex.mk0 0)] []) 0
      = some (Graph.mk [(0, Vertex.mk0 0)] [], [], [0]) := rfl
